import Mathlib

/-!
Verification of the parallel prime counter in `src/primes.c`.

The program fixes `N = 1000000` and `THREAD_COUNT = 8`, keeps a global array
`int prime_count[THREAD_COUNT]` initialised to zero, and spawns one worker
thread per index `0 ≤ k < THREAD_COUNT`.  Worker `k` runs `calculate_primes`
starting at candidate `i = k`, stepping by `THREAD_COUNT` while `i < N`; for
each candidate it trial-divides by every `j` with `2 ≤ j ≤ i/2`, breaking at
the first divisor, and increments `prime_count[k]` when no divisor was found
and `i > 1`.  After joining all threads, `main` sums the array into
`primes_counted` and prints it, surrounded by a `sizeof(short)` line printed
first and a timing line printed last.

We embed the code shallowly: the bound and stride are generalised to
parameters `n` and `t` (the claims quantify over them), machine `int`s become
`Nat` (all values involved are small and non-negative: candidates stay below
`n + t`, counts below `n`, so 32-bit `int` arithmetic never overflows for the
compiled constants and the `Nat` translation is exact), and the global
`prime_count` array becomes explicit state of type `Nat → Nat` threaded
through the worker.  Each worker writes only its own slot, so the final state
of the parallel phase is independent of interleaving; we model the phase as
the workers run in sequence.
-/

namespace Primes

/-- `#define N 1000000`. -/
def N : Nat := 1000000

/-- `#define THREAD_COUNT 8`. -/
def THREAD_COUNT : Nat := 8

/-- The inner loop of `calculate_primes`:
`for (j = 2; j <= i/2; j++) { if (i % j == 0) { flag = 1; break; } }`.
Returns the final value of `flag` (as a `Bool`): whether some `j` with
`2 ≤ j ≤ i/2` divides `i`.  `List.range' 2 (i/2 - 1)` is exactly the list
`[2, 3, …, i/2]` of values `j` takes, and `List.any` short-circuits at the
first divisor like the `break`. -/
def divisorFlag (i : Nat) : Bool :=
  (List.range' 2 (i / 2 - 1)).any (fun j => i % j == 0)

/-- The counting condition at the end of each outer-loop iteration of
`calculate_primes`: `if (flag == 0 && i > 1) prime_count[thread_number]++`.
`i` is counted iff no trial divisor was found and `i > 1`. -/
def isCounted (i : Nat) : Bool :=
  !divisorFlag i && decide (1 < i)

/-- The worker `calculate_primes`, acting on the `prime_count` state.
`tn` is `thread_number` (fixed for the worker), `i` the current candidate;
the loop runs `while (i < n)` stepping `i += t`.  The guard `0 < t` records
that the stride is positive (in the program `t = THREAD_COUNT = 8`); with a
zero stride the C loop would not terminate. -/
def calculate_primes (n t tn : Nat) (i : Nat) (st : Nat → Nat) : Nat → Nat :=
  if h : 0 < t ∧ i < n then
    calculate_primes n t tn (i + t)
      (if isCounted i then (fun m => if m = tn then st m + 1 else st m) else st)
  else st
termination_by n - i
decreasing_by omega

/-- The number of increments the worker performs: the pure count of counted
candidates among `i, i + t, i + 2t, …` below `n`. -/
def workerLoop (n t : Nat) (i : Nat) : Nat :=
  if h : 0 < t ∧ i < n then
    (if isCounted i then 1 else 0) + workerLoop n t (i + t)
  else 0
termination_by n - i
decreasing_by omega

/-- The list of candidates the worker starting at `i` visits, in the order
visited: `i, i + t, i + 2t, …` while `< n`. -/
def workerIndices (n t : Nat) (i : Nat) : List Nat :=
  if _h : 0 < t ∧ i < n then i :: workerIndices n t (i + t) else []
termination_by n - i
decreasing_by omega

/-- `int prime_count[THREAD_COUNT] = {0};` — the initial accumulator state. -/
def prime_count_init : Nat → Nat := fun _ => 0

/-- The parallel phase of `main`: workers `0, …, k-1` each run to completion.
Worker `w` runs `calculate_primes` with `thread_number = w`, starting at
candidate `w` (the integer `w` is passed through the thread argument). -/
def runWorkers (n t : Nat) : Nat → (Nat → Nat) → (Nat → Nat)
  | 0, st => st
  | k + 1, st => calculate_primes n t k k (runWorkers n t k st)

/-- The reduction loop of `main`:
`for (i = 0; i < THREAD_COUNT; i++) primes_counted += prime_count[i];`. -/
def sumCounts (st : Nat → Nat) : Nat → Nat
  | 0 => 0
  | k + 1 => sumCounts st k + st k

/-- `primes_counted` as computed by `main`, for bound `n` and `t` workers:
run all workers from the zero-initialised `prime_count`, then sum. -/
def primes_counted (n t : Nat) : Nat :=
  sumCounts (runWorkers n t t prime_count_init) t

/-- Modelled from the spec (the cross-check property of §8): "the count
produced by a naive sequential scan of `[0, N)` using the same primality
predicate".  A single left-to-right pass over `[0, n)`. -/
def naiveCount (n : Nat) : Nat :=
  ((List.range n).filter (fun v => isCounted v)).length

/-! ### Worker invariants: own-slot result and frame -/

/-- Running the worker adds exactly `workerLoop n t i` to its own slot. -/
theorem calculate_primes_own (n t tn : Nat) (i : Nat) (st : Nat → Nat) :
    calculate_primes n t tn i st tn = st tn + workerLoop n t i := by
  induction i, st using calculate_primes.induct n t tn with
  | case1 i st h ih =>
    simp only [dite_eq_ite] at ih
    rw [calculate_primes, workerLoop, dif_pos h, dif_pos h, ih]
    by_cases hc : isCounted i <;> simp [hc] <;> omega
  | case2 i st h =>
    rw [calculate_primes, workerLoop, dif_neg h, dif_neg h]
    omega

/-- Running the worker leaves every slot other than its own unchanged. -/
theorem calculate_primes_frame (n t tn : Nat) (i : Nat) (st : Nat → Nat)
    (j : Nat) (hj : j ≠ tn) :
    calculate_primes n t tn i st j = st j := by
  induction i, st using calculate_primes.induct n t tn with
  | case1 i st h ih =>
    simp only [dite_eq_ite] at ih
    rw [calculate_primes, dif_pos h, ih]
    by_cases hc : isCounted i <;> simp [hc, hj]
  | case2 i st h =>
    rw [calculate_primes, dif_neg h]

/-- After workers `0, …, k-1` have run, slot `j` holds its initial value plus
worker `j`'s contribution (when worker `j` is among those that ran). -/
theorem runWorkers_slot (n t : Nat) (k : Nat) (st : Nat → Nat) (j : Nat) :
    runWorkers n t k st j = st j + (if j < k then workerLoop n t j else 0) := by
  induction k generalizing j with
  | zero => simp [runWorkers]
  | succ k ih =>
    rw [runWorkers]
    by_cases hj : j = k
    · subst hj
      rw [calculate_primes_own, ih]
      simp
    · rw [calculate_primes_frame n t k k _ j hj, ih]
      by_cases hlt : j < k
      · rw [if_pos hlt, if_pos (Nat.lt_succ_of_lt hlt)]
      · rw [if_neg hlt, if_neg (by omega : ¬ j < k + 1)]

/-! ### The reduction and the partition argument -/

theorem sumCounts_eq_sum (st : Nat → Nat) (k : Nat) :
    sumCounts st k = ∑ j in Finset.range k, st j := by
  induction k with
  | zero => rfl
  | succ k ih => rw [sumCounts, Finset.sum_range_succ, ih]

/-- The total `main` computes is the sum of the per-worker pure counts. -/
theorem primes_counted_eq_sum (n t : Nat) :
    primes_counted n t = ∑ k in Finset.range t, workerLoop n t k := by
  rw [primes_counted, sumCounts_eq_sum]
  apply Finset.sum_congr rfl
  intro k hk
  rw [runWorkers_slot, if_pos (Finset.mem_range.mp hk)]
  simp [prime_count_init]

/-- Decidable membership in the arithmetic progression `i, i + t, i + 2t, …`
(used only to state the partition argument; `inAP_iff` relates it to the
spec's set-builder description). -/
def inAP (i t v : Nat) : Bool :=
  decide (i ≤ v) && (v - i) % t == 0

theorem ap_step (i t v : Nat) (_ht : 0 < t) :
    (∃ m, v = i + t * m) ↔ (v = i ∨ ∃ m, v = (i + t) + t * m) := by
  constructor
  · rintro ⟨m, rfl⟩
    cases m with
    | zero => left; simp
    | succ m => right; exact ⟨m, by ring⟩
  · rintro (rfl | ⟨m, rfl⟩)
    · exact ⟨0, by simp⟩
    · exact ⟨m + 1, by ring⟩

theorem inAP_iff (i t v : Nat) : inAP i t v = true ↔ ∃ m, v = i + t * m := by
  rw [inAP]
  simp only [Bool.and_eq_true, decide_eq_true_eq, beq_iff_eq]
  constructor
  · rintro ⟨hle, hmod⟩
    rcases Nat.eq_zero_or_pos t with rfl | ht
    · exact ⟨0, by omega⟩
    · have hdvd : t ∣ (v - i) := Nat.dvd_of_mod_eq_zero hmod
      rcases hdvd with ⟨m, hm⟩
      exact ⟨m, by omega⟩
  · rintro ⟨m, rfl⟩
    refine ⟨Nat.le_add_right _ _, ?_⟩
    rw [Nat.add_sub_cancel_left, Nat.mul_mod_right]

theorem inAP_mod (t k v : Nat) (hk : k < t) :
    inAP k t v = true ↔ v % t = k := by
  rw [inAP_iff]
  constructor
  · rintro ⟨m, rfl⟩
    rw [Nat.add_mul_mod_self_left]
    exact Nat.mod_eq_of_lt hk
  · intro h
    refine ⟨v / t, ?_⟩
    have h2 := Nat.div_add_mod v t
    rw [h] at h2
    linarith

/-- The worker count equals the number of counted candidates on the worker's
arithmetic progression below `n`. -/
theorem workerLoop_card (n t : Nat) (ht : 0 < t) (i : Nat) :
    workerLoop n t i =
      ((Finset.range n).filter (fun v => inAP i t v = true ∧ isCounted v = true)).card := by
  induction i using workerLoop.induct n t with
  | case1 i h ih =>
    rw [workerLoop, dif_pos h]
    have hstep : ((Finset.range n).filter (fun v => inAP i t v = true ∧ isCounted v = true))
        = (if isCounted i then
            insert i ((Finset.range n).filter
              (fun v => inAP (i + t) t v = true ∧ isCounted v = true))
          else ((Finset.range n).filter
              (fun v => inAP (i + t) t v = true ∧ isCounted v = true))) := by
      by_cases hc : isCounted i
      · rw [if_pos hc]
        ext v
        simp only [Finset.mem_filter, Finset.mem_range, Finset.mem_insert, inAP_iff]
        constructor
        · rintro ⟨hv, hap, hcv⟩
          rcases (ap_step i t v ht).mp hap with rfl | hap'
          · exact Or.inl rfl
          · exact Or.inr ⟨hv, hap', hcv⟩
        · rintro (rfl | ⟨hv, hap', hcv⟩)
          · exact ⟨h.2, ⟨0, by simp⟩, hc⟩
          · exact ⟨hv, (ap_step i t v ht).mpr (Or.inr hap'), hcv⟩
      · rw [if_neg hc]
        ext v
        simp only [Finset.mem_filter, Finset.mem_range, inAP_iff]
        constructor
        · rintro ⟨hv, hap, hcv⟩
          rcases (ap_step i t v ht).mp hap with rfl | hap'
          · exact absurd hcv hc
          · exact ⟨hv, hap', hcv⟩
        · rintro ⟨hv, hap', hcv⟩
          exact ⟨hv, (ap_step i t v ht).mpr (Or.inr hap'), hcv⟩
    rw [hstep, ih]
    by_cases hc : isCounted i
    · have hnotmem : i ∉ (Finset.range n).filter
          (fun v => inAP (i + t) t v = true ∧ isCounted v = true) := by
        intro hmem
        rcases Finset.mem_filter.mp hmem with ⟨-, hap, -⟩
        rw [inAP] at hap
        simp only [Bool.and_eq_true, decide_eq_true_eq] at hap
        omega
      rw [if_pos hc, if_pos hc, Finset.card_insert_of_not_mem hnotmem]
      omega
    · rw [if_neg hc, if_neg hc, Nat.zero_add]
  | case2 i h =>
    rw [workerLoop, dif_neg h]
    symm
    rw [Finset.card_eq_zero, Finset.filter_eq_empty_iff]
    rintro v hv ⟨hap, -⟩
    rw [inAP] at hap
    simp only [Bool.and_eq_true, decide_eq_true_eq] at hap
    have hvn := Finset.mem_range.mp hv
    exact h ⟨by omega, by omega⟩

/-- The naive count as a `Finset` cardinality. -/
theorem naiveCount_card (n : Nat) :
    naiveCount n = ((Finset.range n).filter (fun v => isCounted v = true)).card := by
  induction n with
  | zero => rfl
  | succ n ih =>
    rw [naiveCount, List.range_succ, List.filter_append, List.length_append,
      Finset.range_succ, Finset.filter_insert]
    by_cases hc : isCounted n
    · rw [if_pos hc, Finset.card_insert_of_not_mem (by simp), ← ih, naiveCount]
      simp [hc]
    · rw [if_neg hc, ← ih, naiveCount]
      simp [hc]

/-- Summing the per-worker counts over all residues recovers the naive count:
the fibers of `v ↦ v % t` partition `[0, n)`. -/
theorem sum_workerLoop_eq_naive (n t : Nat) (ht : 0 < t) :
    (∑ k in Finset.range t, workerLoop n t k) = naiveCount n := by
  rw [naiveCount_card]
  have H : ∀ v ∈ (Finset.range n).filter (fun v => isCounted v = true),
      v % t ∈ Finset.range t :=
    fun v _hv => Finset.mem_range.mpr (Nat.mod_lt v ht)
  rw [Finset.card_eq_sum_card_fiberwise H]
  apply Finset.sum_congr rfl
  intro k hk
  have hkt := Finset.mem_range.mp hk
  rw [workerLoop_card n t ht k, Finset.filter_filter]
  congr 1
  ext v
  simp only [Finset.mem_filter, Finset.mem_range, inAP_mod t k v hkt]
  tauto

/-- The program total equals the naive sequential count (shared core of the
cross-check claims). -/
theorem primes_counted_eq_naive (n t : Nat) (ht : 0 < t) :
    primes_counted n t = naiveCount n := by
  rw [primes_counted_eq_sum, sum_workerLoop_eq_naive n t ht]

/-! ### The index sets the workers iterate -/

/-- A candidate is visited by the worker starting at `i` exactly when it lies
on the progression `i, i + t, i + 2t, …` and is below `n`. -/
theorem mem_workerIndices (n t : Nat) (ht : 0 < t) (i v : Nat) :
    v ∈ workerIndices n t i ↔ ((∃ m, v = i + t * m) ∧ v < n) := by
  induction i using workerIndices.induct n t with
  | case1 i h ih =>
    rw [workerIndices, dif_pos h, List.mem_cons, ih]
    constructor
    · rintro (rfl | ⟨hap, hv⟩)
      · exact ⟨⟨0, by simp⟩, h.2⟩
      · exact ⟨(ap_step i t v ht).mpr (Or.inr hap), hv⟩
    · rintro ⟨hap, hv⟩
      rcases (ap_step i t v ht).mp hap with rfl | hap'
      · exact Or.inl rfl
      · exact Or.inr ⟨hap', hv⟩
  | case2 i h =>
    rw [workerIndices, dif_neg h]
    simp only [List.not_mem_nil, false_iff]
    rintro ⟨⟨m, rfl⟩, hv⟩
    have hin : i < n := Nat.lt_of_le_of_lt (Nat.le_add_right i (t * m)) hv
    exact h ⟨ht, hin⟩

/-- The number of outer-loop iterations of the worker starting at `i`. -/
theorem workerIndices_length (n t : Nat) (ht : 0 < t) (i : Nat) :
    (workerIndices n t i).length = (n - i + t - 1) / t := by
  induction i using workerIndices.induct n t with
  | case1 i h ih =>
    rw [workerIndices, dif_pos h, List.length_cons, ih]
    have hkey : n - i + t - 1 = (n - i - 1) + t := by omega
    rw [hkey, Nat.add_div_right _ ht]
    by_cases hd : t ≤ n - i
    · have : n - (i + t) + t - 1 = n - i - 1 := by omega
      rw [this]
    · have h1 : n - (i + t) = 0 := by omega
      rw [h1]
      have h2 : (0 + t - 1) / t = 0 := Nat.div_eq_of_lt (by omega)
      have h3 : (n - i - 1) / t = 0 := Nat.div_eq_of_lt (by omega)
      rw [h2, h3]
  | case2 i h =>
    rw [workerIndices, dif_neg h, List.length_nil]
    have h1 : n - i = 0 := by omega
    rw [h1]
    exact (Nat.div_eq_of_lt (by omega)).symm

/-- The outer loop runs at most `⌈n / t⌉` times. -/
theorem workerIndices_length_le (n t : Nat) (ht : 0 < t) (i : Nat) :
    (workerIndices n t i).length ≤ (n + t - 1) / t := by
  rw [workerIndices_length n t ht i]
  exact Nat.div_le_div_right (by omega)

/-- The inner loop `for (j = 2; j <= i/2; j++)`, counting the iterations it
executes for candidate `v` starting at divisor `j` (the loop body runs once
more after finding a divisor, then breaks). -/
def trialSteps (v j : Nat) : Nat :=
  if _h : j ≤ v / 2 then
    (if v % j == 0 then 1 else 1 + trialSteps v (j + 1))
  else 0
termination_by v / 2 + 1 - j
decreasing_by omega

theorem trialSteps_le (v j : Nat) : trialSteps v j ≤ v / 2 + 1 - j := by
  induction j using trialSteps.induct v with
  | case1 j h hdiv =>
    rw [trialSteps, dif_pos h, if_pos hdiv]
    omega
  | case2 j h hdiv ih =>
    rw [trialSteps, dif_pos h, if_neg hdiv]
    omega
  | case3 j h =>
    rw [trialSteps, dif_neg h]
    omega

/-- Trial division from `j = 2` takes at most `v/2 - 1` iterations. -/
theorem trialSteps_from_two (v : Nat) : trialSteps v 2 ≤ v / 2 - 1 := by
  have := trialSteps_le v 2
  omega

/-! ### The trial-division flag -/

/-- The flag computed by the inner loop is set exactly when some integer from
`2` to `v/2` (inclusive) divides `v`. -/
theorem divisorFlag_iff (v : Nat) :
    divisorFlag v = true ↔ ∃ j, 2 ≤ j ∧ j ≤ v / 2 ∧ v % j = 0 := by
  rw [divisorFlag, List.any_eq_true]
  constructor
  · rintro ⟨j, hj, hmod⟩
    rw [List.mem_range'_1] at hj
    exact ⟨j, hj.1, by omega, by simpa using hmod⟩
  · rintro ⟨j, h2, hle, hmod⟩
    refine ⟨j, ?_, by simpa using hmod⟩
    rw [List.mem_range'_1]
    exact ⟨h2, by omega⟩

/-! ### The observable behaviour of `main`

`main` interleaves stdout writes, clock reads and thread operations; we record
them as an event trace in program order:
`printf("%lu\n", sizeof(short))`, `gettimeofday(&start)`, the
`pthread_create` loop, the `pthread_join` loop, the summation,
`printf("%d primes found\n", …)`, `gettimeofday(&stop)`, and
`printf("took %f sec\n", …)`.  The value of `sizeof(short)` and the formatted
elapsed duration come from the platform and the clock, not from the
computation, so they are parameters of the trace. -/

inductive Event where
  | line (s : String)
  | tsStart
  | spawnW (k : Nat)
  | joinW (k : Nat)
  | tsEnd
deriving DecidableEq

/-- The event trace of a run of `main` in which every `pthread_create`
succeeds, generalised to bound `n` and `t` workers. -/
def mainTrace (n t szShort : Nat) (elapsed : String) : List Event :=
  [Event.line (toString szShort), Event.tsStart]
    ++ (List.range t).map Event.spawnW
    ++ (List.range t).map Event.joinW
    ++ [Event.line (toString (primes_counted n t) ++ " primes found"),
        Event.tsEnd,
        Event.line ("took " ++ elapsed ++ " sec")]

/-- The lines written to stdout during a trace, in order. -/
def outputLines (tr : List Event) : List String :=
  tr.filterMap (fun e => match e with | Event.line s => some s | _ => none)

/-- The spawn loop when `pthread_create` may fail.  `main` discards
`pthread_create`'s return value (`pthread_create(&t_array[i], …)` is not
checked), so a creation that fails for index `k` (`fails k = true`) simply
leaves worker `k` unrun and its slot untouched; the run continues. -/
def runWorkersFailing (n t : Nat) (fails : Nat → Bool) : Nat → (Nat → Nat) → (Nat → Nat)
  | 0, st => st
  | k + 1, st =>
      if fails k then runWorkersFailing n t fails k st
      else calculate_primes n t k k (runWorkersFailing n t fails k st)

/-- The total `main` reports when the creations in `fails` failed: the
summation loop runs unconditionally over all slots. -/
def primes_counted_failing (n t : Nat) (fails : Nat → Bool) : Nat :=
  sumCounts (runWorkersFailing n t fails t prime_count_init) t

/-- The event trace of a run in which the creations in `fails` fail: `main`
has no abort path, so the trace has the same shape as a normal run and the
reported total is computed from the workers that did start. -/
def mainTraceFailing (n t szShort : Nat) (fails : Nat → Bool) (elapsed : String) :
    List Event :=
  [Event.line (toString szShort), Event.tsStart]
    ++ (List.range t).map Event.spawnW
    ++ (List.range t).map Event.joinW
    ++ [Event.line (toString (primes_counted_failing n t fails) ++ " primes found"),
        Event.tsEnd,
        Event.line ("took " ++ elapsed ++ " sec")]

/-- On a normal run the lines written to stdout are exactly: the
`sizeof(short)` line, the count line, and the timing line. -/
theorem outputLines_append (l1 l2 : List Event) :
    outputLines (l1 ++ l2) = outputLines l1 ++ outputLines l2 := by
  simp [outputLines]

theorem outputLines_spawn (t : Nat) :
    outputLines ((List.range t).map Event.spawnW) = [] := by
  rw [outputLines, List.filterMap_map]
  exact List.filterMap_eq_nil_iff.mpr (fun a _ha => rfl)

theorem outputLines_join (t : Nat) :
    outputLines ((List.range t).map Event.joinW) = [] := by
  rw [outputLines, List.filterMap_map]
  exact List.filterMap_eq_nil_iff.mpr (fun a _ha => rfl)

theorem outputLines_mainTrace (n t szShort : Nat) (elapsed : String) :
    outputLines (mainTrace n t szShort elapsed)
      = [toString szShort,
         toString (primes_counted n t) ++ " primes found",
         "took " ++ elapsed ++ " sec"] := by
  rw [mainTrace, outputLines_append, outputLines_append, outputLines_append,
    outputLines_spawn, outputLines_join]
  rfl

/-- Same computation for a run with failed creations. -/
theorem outputLines_mainTraceFailing (n t szShort : Nat) (fails : Nat → Bool)
    (elapsed : String) :
    outputLines (mainTraceFailing n t szShort fails elapsed)
      = [toString szShort,
         toString (primes_counted_failing n t fails) ++ " primes found",
         "took " ++ elapsed ++ " sec"] := by
  rw [mainTraceFailing, outputLines_append, outputLines_append, outputLines_append,
    outputLines_spawn, outputLines_join]
  rfl

/-! ## The claims -/

/-- C1: for every positive domain bound `n` and positive partition count `t`,
the total computed by the parallel range counter (summing the `t`
per-partition accumulators after all workers finish) equals the count
produced by a naive sequential scan of `[0, n)` applying the same primality
predicate to every integer. -/
theorem total_matches_naive_scan (n t : Nat) (_hn : 0 < n) (ht : 0 < t) :
    primes_counted n t = naiveCount n :=
  primes_counted_eq_naive n t ht

theorem total_matches_naive_scan_witness :
    0 < 10 ∧ 0 < 3 ∧ primes_counted 10 3 = naiveCount 10 :=
  ⟨by decide, by decide, total_matches_naive_scan 10 3 (by decide) (by decide)⟩

/-- C2: the `t` partitions — partition `k` being `{k, k+t, k+2t, …}` clipped
to values `< n`, exactly the index set each worker iterates — are pairwise
disjoint and their union is exactly `[0, n)`, with every integer in `[0, n)`
appearing in exactly one partition. -/
theorem partitions_disjoint_cover (n t : Nat) (ht : 0 < t) :
    (∀ k, k < t → ∀ v, v ∈ workerIndices n t k ↔ ((∃ m, v = k + t * m) ∧ v < n)) ∧
    (∀ k1 k2, k1 < t → k2 < t → k1 ≠ k2 → ∀ v,
        v ∈ workerIndices n t k1 → v ∉ workerIndices n t k2) ∧
    (∀ v, v < n → ∃! k, k < t ∧ v ∈ workerIndices n t k) := by
  refine ⟨fun k _hk v => mem_workerIndices n t ht k v, ?_, ?_⟩
  · intro k1 k2 hk1 hk2 hne v hv1 hv2
    have h1 := ((mem_workerIndices n t ht k1 v).mp hv1).1
    have h2 := ((mem_workerIndices n t ht k2 v).mp hv2).1
    have m1 : v % t = k1 := (inAP_mod t k1 v hk1).mp ((inAP_iff k1 t v).mpr h1)
    have m2 : v % t = k2 := (inAP_mod t k2 v hk2).mp ((inAP_iff k2 t v).mpr h2)
    exact hne (m1 ▸ m2)
  · intro v hv
    refine ⟨v % t, ⟨Nat.mod_lt v ht, ?_⟩, ?_⟩
    · rw [mem_workerIndices n t ht]
      exact ⟨(inAP_iff _ t v).mp ((inAP_mod t _ v (Nat.mod_lt v ht)).mpr rfl), hv⟩
    · rintro k ⟨hk, hmem⟩
      have hap := ((mem_workerIndices n t ht k v).mp hmem).1
      exact ((inAP_mod t k v hk).mp ((inAP_iff k t v).mpr hap)).symm

theorem partitions_disjoint_cover_witness : (4 : Nat) ∉ workerIndices 10 3 2 :=
  (partitions_disjoint_cover 10 3 (by decide)).2.1 1 2 (by decide) (by decide)
    (by decide) 4
    (by rw [mem_workerIndices 10 3 (by decide) 1 4]
        exact ⟨⟨1, by decide⟩, by decide⟩)

/-- C3: the primality predicate applied by each worker classifies an integer
`v` as follows: every `v < 2` is not prime; otherwise `v` is prime iff no
integer from `2` up to `v/2` inclusive (integer division) divides `v` (the
scan short-circuits at the first divisor found); in particular `0` and `1`
are not counted, `2` and `17` are, `18` is not. -/
theorem primality_classification :
    (∀ v, v < 2 → isCounted v = false) ∧
    (∀ v, 2 ≤ v → (isCounted v = true ↔ ∀ j, 2 ≤ j → j ≤ v / 2 → v % j ≠ 0)) ∧
    isCounted 0 = false ∧ isCounted 1 = false ∧ isCounted 2 = true ∧
    isCounted 17 = true ∧ isCounted 18 = false := by
  refine ⟨?_, ?_, by decide, by decide, by decide, by decide, by decide⟩
  · intro v hv
    interval_cases v <;> decide
  · intro v hv
    rw [isCounted]
    simp only [Bool.and_eq_true, Bool.not_eq_true', decide_eq_true_eq]
    constructor
    · rintro ⟨hflag, -⟩ j h2 hle hmod
      exact absurd ((divisorFlag_iff v).mpr ⟨j, h2, hle, hmod⟩) (by simp [hflag])
    · intro hnone
      have hdf : divisorFlag v = false := by
        cases hdf : divisorFlag v
        · rfl
        · rcases (divisorFlag_iff v).mp hdf with ⟨j, h2, hle, hmod⟩
          exact absurd hmod (hnone j h2 hle)
      exact ⟨hdf, by omega⟩

theorem primality_classification_witness : isCounted 1 = false :=
  primality_classification.1 1 (by decide)

/-- C4 as stated is false: the claim says the program writes exactly two
lines to stdout, but on the code's constants a normal run writes three (the
`sizeof(short)` line comes first). -/
theorem stdout_two_lines_false :
    ¬ ((outputLines (mainTrace N THREAD_COUNT 2 "0.000001")).length = 2) := by
  rw [outputLines_mainTrace]
  decide

/-- C4 (amended): on a normal run the program writes exactly three lines to
standard output: the value of `sizeof(short)`, then the total prime count
found in `[0, N)` formatted as `"<count> primes found"`, then the elapsed
seconds formatted as `"took <seconds> sec"`. -/
theorem stdout_three_lines (szShort : Nat) (elapsed : String) :
    outputLines (mainTrace N THREAD_COUNT szShort elapsed)
      = [toString szShort,
         toString (naiveCount N) ++ " primes found",
         "took " ++ elapsed ++ " sec"] := by
  rw [outputLines_mainTrace, primes_counted_eq_naive N THREAD_COUNT (by decide)]

/-- C5 is about intent the code does not implement: `main` discards the
return value of `pthread_create`, so a failed worker creation does not abort
the run.  Evaluated at the failing input `n = 10`, `t = 2` with the creation
of worker `1` failing: the run still prints a total — `1` instead of the
correct `4` — computed from only the worker that did start. -/
theorem failed_spawn_no_abort :
    primes_counted_failing 10 2 (fun k => k == 1) = 1 ∧
    naiveCount 10 = 4 ∧
    outputLines (mainTraceFailing 10 2 2 (fun k => k == 1) "0.000001")
      = ["2", "1 primes found", "took 0.000001 sec"] := by
  have h1 : primes_counted_failing 10 2 (fun k => k == 1) = 1 := by
    simp [primes_counted_failing, runWorkersFailing, sumCounts, prime_count_init,
      calculate_primes, isCounted, divisorFlag]
    decide
  refine ⟨h1, by decide, ?_⟩
  rw [outputLines_mainTraceFailing, h1]
  rfl

/-- C6: in the degenerate case `t > n` the computation does not error: every
partition whose starting index `k` satisfies `k ≥ n` is empty, its worker
performs zero iterations and its accumulator stays at its identity value `0`,
and the reported total is still the correct prime count for `[0, n)`; for
`n = 1` and any `t > 0` the total is `0`. -/
theorem degenerate_empty_partitions (n t : Nat) (_hn : 0 < n) (hnt : n < t) :
    (∀ k, n ≤ k → workerIndices n t k = [] ∧ workerLoop n t k = 0 ∧
        runWorkers n t t prime_count_init k = 0) ∧
    primes_counted n t = naiveCount n ∧
    (∀ u, 0 < u → primes_counted 1 u = 0) := by
  have ht : 0 < t := by omega
  refine ⟨?_, primes_counted_eq_naive n t ht, ?_⟩
  · intro k hk
    have hz : workerLoop n t k = 0 := by rw [workerLoop, dif_neg (by omega)]
    refine ⟨by rw [workerIndices, dif_neg (by omega)], hz, ?_⟩
    rw [runWorkers_slot]
    by_cases hkt : k < t
    · rw [if_pos hkt, hz]
      simp [prime_count_init]
    · rw [if_neg hkt]
      simp [prime_count_init]
  · intro u hu
    rw [primes_counted_eq_naive 1 u hu]
    decide

theorem degenerate_empty_partitions_witness :
    0 < 1 ∧ 1 < 4 ∧ primes_counted 1 4 = naiveCount 1 :=
  ⟨by decide, by decide, (degenerate_empty_partitions 1 4 (by decide) (by decide)).2.1⟩

/-- C7: during the parallel phase the worker for partition `k` mutates only
its own accumulator slot `prime_count[k]`: after it runs, every other slot
`j ≠ k` holds the same value it held before. -/
theorem worker_touches_only_own_slot (n t k : Nat) (st : Nat → Nat) (j : Nat)
    (hj : j ≠ k) :
    calculate_primes n t k k st j = st j :=
  calculate_primes_frame n t k k st j hj

theorem worker_touches_only_own_slot_witness :
    calculate_primes 10 2 0 0 (fun m => m + 5) 1 = 1 + 5 :=
  worker_touches_only_own_slot 10 2 0 (fun m => m + 5) 1 (by decide)

/-- C8: the computation is deterministic: two runs with identical `n` and `t`
produce identical total counts — each run starts from a freshly
zero-initialised accumulator array and the result depends on nothing else. -/
theorem reruns_identical (n t : Nat) (st1 st2 : Nat → Nat)
    (h1 : ∀ k, k < t → st1 k = 0) (h2 : ∀ k, k < t → st2 k = 0) :
    sumCounts (runWorkers n t t st1) t = sumCounts (runWorkers n t t st2) t := by
  rw [sumCounts_eq_sum, sumCounts_eq_sum]
  apply Finset.sum_congr rfl
  intro k hk
  rw [runWorkers_slot, runWorkers_slot, h1 k (Finset.mem_range.mp hk),
    h2 k (Finset.mem_range.mp hk)]

theorem reruns_identical_witness :
    sumCounts (runWorkers 10 2 2 (fun _ => 0)) 2
      = sumCounts (runWorkers 10 2 2 (fun m => m * 0)) 2 :=
  reruns_identical 10 2 (fun _ => 0) (fun m => m * 0)
    (fun _k _hk => rfl) (fun k _hk => Nat.mul_zero k)

/-- C9: the computation terminates with bounded work: the worker outer loop
starting at `k` performs at most `⌈n/t⌉` iterations (and zero when `k ≥ n`),
and for each candidate `v` the inner trial-division loop performs at most
`v/2 - 1` iterations. -/
theorem loops_terminate_bounded (n t k : Nat) (ht : 0 < t) :
    (workerIndices n t k).length ≤ (n + t - 1) / t ∧
    (n ≤ k → (workerIndices n t k).length = 0) ∧
    (∀ v, trialSteps v 2 ≤ v / 2 - 1) := by
  refine ⟨workerIndices_length_le n t ht k, ?_, fun v => trialSteps_from_two v⟩
  intro hk
  rw [workerIndices, dif_neg (by omega)]
  rfl

theorem loops_terminate_bounded_witness :
    (workerIndices 10 3 0).length ≤ (10 + 3 - 1) / 3 :=
  (loops_terminate_bounded 10 3 0 (by decide)).1

/-- C10: on every run the first thing `main` does is print the value of
`sizeof(short)` on its own line, before the start timestamp is recorded
(position 1 of the trace) and before any worker is spawned (positions 2
onward), so the program's stdout consists of three lines, not two. -/
theorem sizeof_line_first (szShort : Nat) (elapsed : String) :
    (mainTrace N THREAD_COUNT szShort elapsed).head?
        = some (Event.line (toString szShort)) ∧
    (mainTrace N THREAD_COUNT szShort elapsed).get? 1 = some Event.tsStart ∧
    (∀ k, k < THREAD_COUNT →
      (mainTrace N THREAD_COUNT szShort elapsed).get? (2 + k)
        = some (Event.spawnW k)) ∧
    (outputLines (mainTrace N THREAD_COUNT szShort elapsed)).length = 3 := by
  refine ⟨rfl, rfl, ?_, ?_⟩
  · intro k hk
    have hk8 : k < 8 := hk
    interval_cases k <;> rfl
  · rw [outputLines_mainTrace]
    rfl

theorem sizeof_line_first_witness :
    (mainTrace N THREAD_COUNT 2 "0.000001").get? 2 = some (Event.spawnW 0) :=
  (sizeof_line_first 2 "0.000001").2.2.1 0 (by decide)

end Primes
